import Mathlib

/-!
Verification of the release-notes core of `agile/commands/github.py`
(class `Github`: `add_note`, `release_notes`, `_from_pull_requests`, and
the `check_update` callback).

Messages are modelled as `List Char` (named `Str` below); each Python
string primitive that the source uses (`str.find`, `str.split()`,
`str.replace`, `str.strip`, `str.lower`, `int(...)`) is embedded as an
executable Lean function with the same behaviour on the inputs the code
can produce.  Timestamps are modelled as naturals carrying the linear
order that `dateutil.parser.parse` induces on the date strings; issue
lookup (`repo.issue(n).get()`, an awaited network call that may raise)
is modelled as a function `Int → Option Str` returning the issue's
`html_url` on success and `none` when the call raises.
-/

namespace PulsarAgile

/-- Python strings, modelled as lists of characters. -/
abbrev Str := List Char

/-- Coerce a Lean string literal to the `Str` model. -/
def str (s : String) : Str := s.data

/-- Python's whitespace test for `str.split` / `str.strip`
(ASCII whitespace; exotic Unicode whitespace is not modelled). -/
def pyIsSpace (c : Char) : Bool :=
  c = ' ' || c = '\t' || c = '\n' || c = '\r' || c = '\x0b' || c = '\x0c'

/-- ASCII case folding of one character, as Python's `str.lower` does on
ASCII data (non-ASCII case folding is not modelled). -/
def lowerChar (c : Char) : Char :=
  if 65 ≤ c.toNat ∧ c.toNat ≤ 90 then Char.ofNat (c.toNat + 32) else c

/-- Python `str.lower`. -/
def pyLower (s : Str) : Str := s.map lowerChar

/-- Remove trailing whitespace. -/
def dropTrail (s : Str) : Str := (s.reverse.dropWhile pyIsSpace).reverse

/-- Python `str.strip()`: remove leading and trailing whitespace. -/
def pyStrip (s : Str) : Str := dropTrail (s.dropWhile pyIsSpace)

/-- Fuelled worker for `pySplit`; the fuel only bounds the recursion and
never runs out when it starts at the length of the string. -/
def pySplitAux : Nat → Str → List Str
  | 0, _ => []
  | _ + 1, [] => []
  | fuel + 1, c :: t =>
    if pyIsSpace c then pySplitAux fuel t
    else (c :: t.takeWhile (fun d => !pyIsSpace d)) ::
      pySplitAux fuel (t.dropWhile (fun d => !pyIsSpace d))

/-- Python `str.split()` with no argument: maximal runs of
non-whitespace characters, with no empty words. -/
def pySplit (s : Str) : List Str := pySplitAux s.length s

/-- Python `str.find`: index of the first occurrence of `pat` in `s`,
`none` standing for Python's `-1`. -/
def firstOccur (s pat : Str) : Option Nat :=
  match s with
  | [] => if pat.isPrefixOf ([] : Str) then some 0 else none
  | c :: t =>
    if pat.isPrefixOf (c :: t) then some 0
    else (firstOccur t pat).map (· + 1)

/-- Boolean substring test (Python's `in` on strings). -/
def containsSubstr (s pat : Str) : Bool := (firstOccur s pat).isSome

/-- Substring occurrence as a proposition. -/
def occursIn (pat s : Str) : Prop := ∃ u v, s = u ++ pat ++ v

/-- Fuelled worker for `replaceAll`.  Replacement scans left to right and
continues after each replaced occurrence, exactly as Python's
`str.replace` does; the fuel never runs out when it starts at the length
of the string and the pattern is non-empty. -/
def replaceAllAux : Nat → Str → Str → Str → Str
  | 0, s, _, _ => s
  | _ + 1, [], _, _ => []
  | fuel + 1, c :: t, pat, rep =>
    if pat.isPrefixOf (c :: t) then rep ++ replaceAllAux fuel ((c :: t).drop pat.length) pat rep
    else c :: replaceAllAux fuel t pat rep

/-- Python `str.replace(pat, rep)` (all occurrences, left to right).  The
source only ever calls it with a non-empty pattern (the pattern always
starts with `#`), so the empty pattern is mapped to the identity. -/
def replaceAll (s pat rep : Str) : Str :=
  if pat.isEmpty then s else replaceAllAux s.length s pat rep

/-- Fuelled worker for `countOccur`. -/
def countOccurAux : Nat → Str → Str → Nat
  | 0, _, _ => 0
  | _ + 1, [], _ => 0
  | fuel + 1, c :: t, pat =>
    if pat.isPrefixOf (c :: t) then 1 + countOccurAux fuel ((c :: t).drop pat.length) pat
    else countOccurAux fuel t pat

/-- Python `str.count`: number of non-overlapping occurrences of `pat`,
scanning left to right. -/
def countOccur (s pat : Str) : Nat := countOccurAux s.length s pat

/-- Digit run to number, for `int(...)`. -/
def digitsToNat (ds : Str) : Option Nat :=
  if ds = [] then none
  else if ds.all (fun c => c.isDigit) then
    some (ds.foldl (fun a c => a * 10 + (c.toNat - 48)) 0)
  else none

/-- Python `int(...)` on a whitespace-free token: optional sign followed
by decimal digits, `none` standing for `ValueError` (digit-group
underscores of Python are not modelled; the code never produces them
from issue references it accepts). -/
def pyInt (s : Str) : Option Int :=
  if s.head? = some '+' then (digitsToNat (s.drop 1)).map Int.ofNat
  else if s.head? = some '-' then (digitsToNat (s.drop 1)).map (fun n => -(Int.ofNat n))
  else (digitsToNat s).map Int.ofNat

/-- Modelled from the spec: `capfirst` is imported from
`pulsar.utils.html`, which is not part of this repository; the spec says
it capitalizes the first letter of the body (§4.1, §4.5). -/
def capfirst (s : Str) : Str :=
  match s with
  | [] => []
  | c :: t => c.toUpper :: t

/-- The Markdown link `[name](target)` built by both branches of
`add_note` (`'[%s](%s)' % (name, url)`). -/
def mdLink (name target : Str) : Str :=
  '[' :: name ++ ']' :: '(' :: target ++ [')']

/-- The module-level `close_issue` set of github.py (a set of string
tokens; modelled as a list consulted by membership). -/
def close_issue : List Str :=
  [str "close", str "closes", str "closed", str "fix", str "fixes",
   str "fixed", str "resolve", str "resolves", str "resolved"]

/-- The release-note marker `'#release-note'` searched by `add_note`. -/
def markerKey : Str := str "#release-note"

/-- A note tuple `(dte, section, body)` as appended to the `notes`
accumulator by `add_note` (`section` is a Lean keyword, so that field is
called `sec` here). -/
structure Note where
  dte : Nat
  sec : Str
  body : Str
deriving DecidableEq, Repr

/-- The Python error that `add_note` can raise: the `IndexError` of
`message[index1+1:].split()[0]` on an empty word list. -/
inductive PyError where
  | indexError
deriving DecidableEq, Repr

/-- Result of one `add_note` call: the note appended to the accumulator,
if any (at most one per call), and the trace of issue tokens `bit` for
which `repo.issue(number).get()` was invoked, in call order. -/
structure AddNoteResult where
  note : Option Note
  lookups : List Str
deriving DecidableEq, Repr

/-- One iteration of the `for msg, bit in zip(bits[:-1], bits[1:])` loop
of `add_note`: state is the `substitutes` insertion-ordered dict together
with the trace of issue tokens looked up so far. -/
def scanStep (lookup : Int → Option Str) (st : List (Str × Str) × List Str)
    (p : Str × Str) : List (Str × Str) × List Str :=
  if p.2.head? = some '#' && close_issue.contains (pyLower p.1) then
    match pyInt (p.2.drop 1) with
    | none => st
    | some number =>
      if st.1.any (fun kv => kv.1 = p.2) then st
      else
        match lookup number with
        | none => (st.1, st.2 ++ [p.2])
        | some url => (st.1 ++ [(p.2, url)], st.2 ++ [p.2])
  else st

/-- The whole `substitutes` loop of the marker-absent branch of
`add_note`. -/
def scanSubstitutes (lookup : Int → Option Str) (pairs : List (Str × Str)) :
    List (Str × Str) × List Str :=
  pairs.foldl (scanStep lookup) ([], [])

/-- One substitution `message.replace(name, '[%s](%s)' % (name, url))`
of the marker-absent branch. -/
def subLink (m : Str) (kv : Str × Str) : Str :=
  replaceAll m kv.1 (mdLink kv.1 kv.2)

/-- The tail of the marker branch of `add_note`: remove `key` from the
message, strip, and if anything remains emit the note with the lowercased
section and the entry link appended. -/
def mkNote (message key sec : Str) (dte : Nat) (eid entry_url : Str) : Option Note :=
  match pyStrip (replaceAll message key []) with
  | [] => none
  | b :: body' => some ⟨dte, pyLower sec, capfirst (b :: body') ++ ' ' :: mdLink eid entry_url⟩

/-- `Github.add_note` (github.py lines 111-147).  `lookup` stands for
`repo.issue(number).get()['html_url']`; `entry_url` for
`entry['html_url']`. -/
def add_note (lookup : Int → Option Str) (message : Str) (dte : Nat)
    (eid entry_url : Str) : Except PyError AddNoteResult :=
  match firstOccur message markerKey with
  | none =>
    let bits := pySplit message
    let scanned := scanSubstitutes lookup (bits.dropLast.zip bits.tail)
    match scanned.1 with
    | [] => .ok ⟨none, scanned.2⟩
    | _ :: _ =>
      .ok ⟨some ⟨dte, [], scanned.1.foldl subLink message⟩, scanned.2⟩
  | some index =>
    let index1 := index + markerKey.length
    if (message.drop index1).head? = some '=' then
      match pySplit (message.drop (index1 + 1)) with
      | [] => .error .indexError
      | sec :: _ =>
        .ok ⟨mkNote message (markerKey ++ '=' :: sec) sec dte eid entry_url, []⟩
    else
      .ok ⟨mkNote message markerKey [] dte eid entry_url, []⟩

/-- Stable insertion of a note into an ascending-by-timestamp list:
the note goes after every element whose timestamp is not greater. -/
def insertAsc (n : Note) : List Note → List Note
  | [] => [n]
  | m :: t => if n.dte < m.dte then n :: m :: t else m :: insertAsc n t

/-- Python's `sorted(notes, key=lambda s: s[0])`: a stable ascending sort
by timestamp, modelled as stable insertion sort. -/
def sortAsc (l : List Note) : List Note := l.foldl (fun acc n => insertAsc n acc) []

/-- `reversed(sorted(notes, key=lambda s: s[0]))` (github.py line 95):
ascending stable sort, then reversal. -/
def sortNotes (l : List Note) : List Note := (sortAsc l).reverse

/-- Lexicographic order on strings by code point, as Python compares
strings in `sorted(sections)`. -/
def strLt : Str → Str → Bool
  | [], [] => false
  | [], _ :: _ => true
  | _ :: _, [] => false
  | a :: s, b :: t => a.toNat < b.toNat || (a = b && strLt s t)

/-- Insertion of a string into an ascending list. -/
def insertStr (x : Str) : List Str → List Str
  | [] => [x]
  | y :: t => if strLt x y then x :: y :: t else y :: insertStr x t

/-- Python's `sorted(...)` over the section keys, modelled as insertion
sort by `strLt` (the keys are pairwise distinct, so stability is moot). -/
def sortStrs (l : List Str) : List Str := l.foldl (fun acc x => insertStr x acc) []

/-- The grouping loop of `release_notes` (lines 95-98): a Python dict is
insertion ordered, so it is modelled as an association list to which new
section keys are appended and existing keys get their body list
extended. -/
def groupStep (secs : List (Str × List Str)) (n : Note) : List (Str × List Str) :=
  if secs.any (fun kv => kv.1 = n.sec) then
    secs.map (fun kv => if kv.1 = n.sec then (kv.1, kv.2 ++ [n.body]) else kv)
  else secs ++ [(n.sec, [n.body])]

def groupSections (ordered : List Note) : List (Str × List Str) :=
  ordered.foldl groupStep []

/-- `sections[title]` for a title produced by the grouping. -/
def lookupSec (secs : List (Str × List Str)) (k : Str) : List Str :=
  ((secs.find? (fun kv => kv.1 = k)).map (fun kv => kv.2)).getD []

/-- The bullet normalisation of lines 105-106: prepend `'* '` unless the
entry already starts with it. -/
def bullet (entry : Str) : Str :=
  if (str "* ").isPrefixOf entry then entry else '*' :: ' ' :: entry

/-- The lines a single section contributes (lines 101-108): a `## `
heading capitalised by `capfirst` unless the title is empty, the
bulleted entries, then a blank separator line. -/
def sectionBlock (title : Str) (entries : List Str) : List Str :=
  (if title = [] then [] else [str "## " ++ capfirst title]) ++
    entries.map bullet ++ [[]]

/-- The section keys in the order the rendering loop visits them:
`sorted(sections)`. -/
def renderTitles (notes : List Note) : List Str :=
  sortStrs ((groupSections (sortNotes notes)).map (fun kv => kv.1))

/-- `'\n'.join(body)`. -/
def joinLines (ls : List Str) : Str := List.intercalate ['\n'] ls

/-- The rendering stage of `Github.release_notes` (github.py lines
94-109), taking the already collected notes, the version string, and the
formatted date `dt` (the `date.today().strftime(...)` value, external to
the core). -/
def release_notes (notes : List Note) (version dt : Str) : Str :=
  let secs := groupSections (sortNotes notes)
  joinLines
    ((str "# Ver. " ++ version ++ str " - " ++ dt) :: [] ::
      (renderTitles notes).flatMap (fun title => sectionBlock title (lookupSec secs title)))

/-- A closed pull request record as read by `_from_pull_requests`:
`updated_at` and `closed_at` carry the order `dateutil.parser.parse`
induces on the original strings. -/
structure Pull where
  number : Int
  body : Str
  closed_at : Nat
  updated_at : Nat
  html_url : Str

/-- The `check_update` callback class (github.py lines 186-197): keeps
the pulls whose `updated_at` is strictly after `since`, in order. -/
def check_update (since : Nat) (pulls : List Pull) : List Pull :=
  pulls.foldl (fun new_pulls pull =>
    if since < pull.updated_at then new_pulls ++ [pull] else new_pulls) []

/-- `'#%d' % entry['number']`. -/
def eidOfPull (p : Pull) : Str := '#' :: (toString p.number).data

/-- Run `add_note` on each message of a list, accumulating the notes and
propagating a raise, as the collector loops do. -/
def addAll (lookup : Int → Option Str) (msgs : List Str) (dte : Nat)
    (eid entry_url : Str) (acc : List Note) : Except PyError (List Note) :=
  match msgs with
  | [] => .ok acc
  | m :: rest =>
    match add_note lookup m dte eid entry_url with
    | .error e => .error e
    | .ok r => addAll lookup rest dte eid entry_url (acc ++ r.note.toList)

/-- The per-pull work of `_from_pull_requests` (lines 174-182): the PR
body first, then each comment of the PR's shared issue comment stream
(`comments` models `repo.issue(number).comments()`), all with the PR's
`closed_at` timestamp, `#<number>` id and URL. -/
def pullMessages (comments : Int → List Str) (p : Pull) : List Str :=
  p.body :: comments p.number

/-- The collector loop of `_from_pull_requests` over an already fetched
pull list. -/
def notesFromPulls (lookup : Int → Option Str) (comments : Int → List Str) :
    List Pull → List Note → Except PyError (List Note)
  | [], acc => .ok acc
  | p :: rest, acc =>
    match addAll lookup (pullMessages comments p) p.closed_at (eidOfPull p) p.html_url acc with
    | .error e => .error e
    | .ok acc' => notesFromPulls lookup comments rest acc'

/-- `Github._from_pull_requests` (lines 167-183): `fetchPulls` models
`repo.pulls(callback=check_update(created_at), state='closed',
sort='updated', direction='desc')` — the external fetch that applies the
supplied callback to the list it retrieves (spec §6); the state, sort
and direction arguments live inside that collaborator. -/
def from_pull_requests (lookup : Int → Option Str) (comments : Int → List Str)
    (fetchPulls : (List Pull → List Pull) → List Pull) (since : Nat) :
    Except PyError (List Note) :=
  notesFromPulls lookup comments (fetchPulls (check_update since)) []

/-- The note component of an `add_note` outcome (`none` when the call
raised). -/
def noteOf (r : Except PyError AddNoteResult) : Option (Option Note) :=
  match r with
  | .ok a => some a.note
  | .error _ => none

/-- Whether an `add_note` outcome is the `IndexError` raise. -/
def isIndexError (r : Except PyError AddNoteResult) : Bool :=
  match r with
  | .error .indexError => true
  | _ => false

/-- The crash condition of claim C2, as a predicate on the message: the
first occurrence of the marker is immediately followed by `=` and only
whitespace (or nothing) follows that `=`. -/
def markerEqNoToken (message : Str) : Bool :=
  match firstOccur message markerKey with
  | none => false
  | some index =>
    if (message.drop (index + markerKey.length)).head? = some '=' then
      (pySplit (message.drop (index + markerKey.length + 1))).isEmpty
    else false

/-! Helper lemmas about the string primitives. -/

theorem length_dropWhile_le (p : Char → Bool) (l : List Char) :
    (l.dropWhile p).length ≤ l.length := by
  induction l with
  | nil => simp
  | cons c t ih =>
    by_cases h : p c <;> simp [List.dropWhile_cons, h] <;> omega

theorem takeWhile_append_of_all {p : Char → Bool} {l : List Char} (r : List Char)
    (h : ∀ x ∈ l, p x = true) : (l ++ r).takeWhile p = l ++ r.takeWhile p := by
  induction l with
  | nil => simp
  | cons c t ih =>
    have hc : p c = true := h c (by simp)
    have ih' := ih fun x hx => h x (by simp [hx])
    simp [List.takeWhile_cons, hc, ih']

theorem isPrefixOf_append_self (l r : Str) : l.isPrefixOf (l ++ r) = true := by
  induction l with
  | nil => simp [List.isPrefixOf]
  | cons c t ih => simpa [List.isPrefixOf] using ih

theorem isPrefixOf_decomp {pat s : Str} (h : pat.isPrefixOf s = true) :
    s = pat ++ s.drop pat.length := by
  induction pat generalizing s with
  | nil => simp
  | cons c t ih =>
    cases s with
    | nil => simp [List.isPrefixOf] at h
    | cons d u =>
      simp only [List.isPrefixOf, Bool.and_eq_true, beq_iff_eq] at h
      obtain ⟨rfl, h2⟩ := h
      simpa using ih h2

theorem firstOccur_of_pref {pat s : Str} (h : pat.isPrefixOf s = true) :
    firstOccur s pat = some 0 := by
  cases s with
  | nil =>
    cases pat with
    | nil => rfl
    | cons c t => simp [List.isPrefixOf] at h
  | cons c t =>
    unfold firstOccur
    rw [if_pos h]

theorem firstOccur_isSome_of_occursIn {pat s : Str} (h : occursIn pat s) :
    (firstOccur s pat).isSome = true := by
  obtain ⟨u, v, rfl⟩ := h
  induction u with
  | nil =>
    rw [List.nil_append, firstOccur_of_pref (isPrefixOf_append_self pat v)]
    rfl
  | cons d u' ih =>
    have hform : (d :: u') ++ pat ++ v = d :: (u' ++ pat ++ v) := by simp
    rw [hform]
    unfold firstOccur
    by_cases hp : pat.isPrefixOf (d :: (u' ++ pat ++ v)) = true
    · rw [if_pos hp]; rfl
    · rw [if_neg hp]
      simpa using ih

theorem mem_of_occursIn {pat s : Str} {c : Char} (hc : c ∈ pat) (h : occursIn pat s) :
    c ∈ s := by
  obtain ⟨u, v, rfl⟩ := h
  simp [hc]

theorem replaceAllAux_mem {c : Char} {pat : Str} (rep : Str) :
    ∀ (fuel : Nat) (s : Str), c ∈ s → c ∉ pat → c ∈ replaceAllAux fuel s pat rep := by
  intro fuel
  induction fuel with
  | zero => intro s hs _; simpa [replaceAllAux] using hs
  | succ fuel ih =>
    intro s hs hnp
    cases s with
    | nil => simp at hs
    | cons d t =>
      unfold replaceAllAux
      by_cases hp : pat.isPrefixOf (d :: t) = true
      · rw [if_pos hp]
        have hs' : c ∈ pat ++ (d :: t).drop pat.length := by
          rw [← isPrefixOf_decomp hp]; exact hs
        have hct : c ∈ (d :: t).drop pat.length := by
          rcases List.mem_append.mp hs' with h | h
          · exact absurd h hnp
          · exact h
        exact List.mem_append_right _ (ih _ hct hnp)
      · rw [if_neg hp]
        rcases List.mem_cons.mp hs with rfl | hs'
        · exact List.mem_cons_self _ _
        · exact List.mem_cons_of_mem _ (ih _ hs' hnp)

theorem replaceAll_mem {c : Char} {s pat : Str} (rep : Str)
    (hs : c ∈ s) (hnp : c ∉ pat) : c ∈ replaceAll s pat rep := by
  unfold replaceAll
  by_cases he : pat.isEmpty
  · simpa [he] using hs
  · simpa [he] using replaceAllAux_mem rep s.length s hs hnp

theorem replaceAllAux_rep_occurs {pat rep : Str} (hpat : pat ≠ []) :
    ∀ (fuel : Nat) (s : Str), s.length ≤ fuel → occursIn pat s →
      occursIn rep (replaceAllAux fuel s pat rep) := by
  intro fuel
  induction fuel with
  | zero =>
    intro s hlen hocc
    obtain ⟨u, v, rfl⟩ := hocc
    cases pat with
    | nil => exact absurd rfl hpat
    | cons c t => simp at hlen
  | succ fuel ih =>
    intro s hlen hocc
    cases s with
    | nil =>
      obtain ⟨u, v, he⟩ := hocc
      cases pat with
      | nil => exact absurd rfl hpat
      | cons c t => simp at he
    | cons d t =>
      unfold replaceAllAux
      by_cases hp : pat.isPrefixOf (d :: t) = true
      · rw [if_pos hp]
        exact ⟨[], replaceAllAux fuel ((d :: t).drop pat.length) pat rep, by simp⟩
      · rw [if_neg hp]
        obtain ⟨u, v, he⟩ := hocc
        cases u with
        | nil =>
          exfalso
          apply hp
          rw [show d :: t = pat ++ v by simpa using he]
          exact isPrefixOf_append_self pat v
        | cons d' u' =>
          rw [show (d' :: u') ++ pat ++ v = d' :: (u' ++ pat ++ v) by simp] at he
          have hd : d = d' := (List.cons.injEq d t d' _).mp he |>.1
          have ht : t = u' ++ pat ++ v := (List.cons.injEq d t d' _).mp he |>.2
          have hrec := ih t (by simp at hlen; omega) ⟨u', v, ht⟩
          obtain ⟨a, b, hab⟩ := hrec
          exact ⟨d :: a, b, by simp [hab]⟩

theorem replaceAll_rep_occurs {s pat rep : Str} (hpat : pat ≠ [])
    (hocc : occursIn pat s) : occursIn rep (replaceAll s pat rep) := by
  unfold replaceAll
  have he : pat.isEmpty = false := by cases pat with
    | nil => exact absurd rfl hpat
    | cons c t => rfl
  simpa [he] using replaceAllAux_rep_occurs hpat s.length s (le_refl _) hocc

theorem pySplitAux_mem_decomp :
    ∀ (fuel : Nat) (s w : Str), s.length ≤ fuel → w ∈ pySplitAux fuel s →
      occursIn w s := by
  intro fuel
  induction fuel with
  | zero => intro s w _ hw; simp [pySplitAux] at hw
  | succ fuel ih =>
    intro s w hlen hw
    cases s with
    | nil => simp [pySplitAux] at hw
    | cons c t =>
      simp only [pySplitAux] at hw
      by_cases hsp : pyIsSpace c = true
      · simp only [hsp, if_true] at hw
        obtain ⟨u, v, huv⟩ := ih t w (by simp at hlen; omega) hw
        exact ⟨c :: u, v, by simp [huv]⟩
      · simp only [hsp, if_false, Bool.false_eq_true, List.mem_cons] at hw
        rcases hw with rfl | hw
        · refine ⟨[], t.dropWhile (fun d => !pyIsSpace d), ?_⟩
          simp [List.takeWhile_append_dropWhile]
        · have hlt : (t.dropWhile (fun d => !pyIsSpace d)).length ≤ fuel := by
            have := length_dropWhile_le (fun d => !pyIsSpace d) t
            simp at hlen; omega
          obtain ⟨u, v, huv⟩ := ih _ w hlt hw
          refine ⟨(c :: t.takeWhile (fun d => !pyIsSpace d)) ++ u, v, ?_⟩
          have := List.takeWhile_append_dropWhile (l := t) (p := fun d => !pyIsSpace d)
          calc c :: t = c :: (t.takeWhile (fun d => !pyIsSpace d) ++
              t.dropWhile (fun d => !pyIsSpace d)) := by rw [this]
            _ = (c :: t.takeWhile (fun d => !pyIsSpace d)) ++ u ++ w ++ v := by
              simp [huv]

theorem pySplit_mem_occursIn {s w : Str} (hw : w ∈ pySplit s) : occursIn w s :=
  pySplitAux_mem_decomp s.length s w (le_refl _) hw

theorem pySplit_head_word {tok rest : Str} (hne : tok ≠ [])
    (hns : ∀ c ∈ tok, pyIsSpace c = false)
    (hrest : pyIsSpace (rest.headD ' ') = true) :
    (pySplit (tok ++ rest)).head? = some tok := by
  cases tok with
  | nil => exact absurd rfl hne
  | cons c t =>
    have hc : pyIsSpace c = false := hns c (by simp)
    have htail : (t ++ rest).takeWhile (fun d => !pyIsSpace d) = t := by
      rw [takeWhile_append_of_all rest (fun x hx => by simp [hns x (by simp [hx])])]
      cases rest with
      | nil => simp
      | cons d r =>
        have hd : pyIsSpace d = true := by simpa using hrest
        simp [List.takeWhile_cons, hd]
    show (pySplitAux ((c :: t) ++ rest).length ((c :: t) ++ rest)).head? = some (c :: t)
    rw [show (c :: t) ++ rest = c :: (t ++ rest) by simp, List.length_cons]
    unfold pySplitAux
    rw [if_neg (by simp [hc])]
    rw [htail]
    rfl

theorem strip_all_space {s : Str} (h : pyStrip s = []) : ∀ c ∈ s, pyIsSpace c = true := by
  intro c hc
  unfold pyStrip dropTrail at h
  have h1 : (s.dropWhile pyIsSpace).reverse.dropWhile pyIsSpace = [] := by
    have := congrArg List.reverse h
    simpa using this
  have h2 : ∀ x ∈ (s.dropWhile pyIsSpace).reverse, pyIsSpace x = true :=
    fun x hx => List.dropWhile_eq_nil_iff.mp h1 x hx
  have h3 : ∀ x ∈ s.dropWhile pyIsSpace, pyIsSpace x = true :=
    fun x hx => h2 x (by simpa using hx)
  have h4 : s = s.takeWhile pyIsSpace ++ s.dropWhile pyIsSpace :=
    (List.takeWhile_append_dropWhile pyIsSpace s).symm
  rw [h4] at hc
  rcases List.mem_append.mp hc with h5 | h5
  · exact List.mem_takeWhile_imp h5
  · exact h3 c h5

theorem pyStrip_ne_nil {s : Str} {c : Char} (hc : c ∈ s) (hns : pyIsSpace c = false) :
    pyStrip s ≠ [] := by
  intro h
  rw [strip_all_space h c hc] at hns
  exact Bool.true_eq_false.mp hns

theorem charToNat_ofNat {n : Nat} (h : n < 55296) : (Char.ofNat n).toNat = n := by
  have hv : n.isValidChar := Or.inl h
  rw [Char.ofNat, dif_pos hv]
  simp [Char.ofNatAux, Char.toNat, UInt32.toNat]

theorem lowerChar_idem (c : Char) : lowerChar (lowerChar c) = lowerChar c := by
  unfold lowerChar
  by_cases h : 65 ≤ c.toNat ∧ c.toNat ≤ 90
  · simp only [if_pos h]
    have hval : (Char.ofNat (c.toNat + 32)).toNat = c.toNat + 32 :=
      charToNat_ofNat (by omega)
    rw [if_neg (by rw [hval]; omega)]
  · simp only [if_neg h]

theorem pyLower_idem (s : Str) : pyLower (pyLower s) = pyLower s := by
  unfold pyLower
  rw [List.map_map]
  exact List.map_congr_left fun c _ => lowerChar_idem c

/-! Helper lemmas about the timestamp sort of `release_notes`. -/

theorem insertAsc_perm (n : Note) (l : List Note) :
    List.Perm (insertAsc n l) (n :: l) := by
  induction l with
  | nil => exact List.Perm.refl _
  | cons m t ih =>
    unfold insertAsc
    by_cases h : n.dte < m.dte
    · rw [if_pos h]
    · rw [if_neg h]
      exact (ih.cons m).trans (List.Perm.swap n m t)

theorem sortAsc_perm (l : List Note) : List.Perm (sortAsc l) l := by
  have key : ∀ (l acc : List Note),
      List.Perm (l.foldl (fun acc n => insertAsc n acc) acc) (acc ++ l) := by
    intro l
    induction l with
    | nil => intro acc; simp
    | cons n t ih =>
      intro acc
      have h1 := ih (insertAsc n acc)
      have h2 : List.Perm (insertAsc n acc ++ t) ((n :: acc) ++ t) :=
        (insertAsc_perm n acc).append_right t
      have h3 : List.Perm ((n :: acc) ++ t) (acc ++ n :: t) := by
        rw [List.cons_append]; exact List.perm_middle.symm
      exact (h1.trans h2).trans h3
  simpa using key l []

theorem insertAsc_pairwise {l : List Note} (n : Note)
    (h : l.Pairwise (fun a b => a.dte ≤ b.dte)) :
    (insertAsc n l).Pairwise (fun a b => a.dte ≤ b.dte) := by
  induction l with
  | nil => simp [insertAsc]
  | cons m t ih =>
    unfold insertAsc
    rcases List.pairwise_cons.mp h with ⟨hm, ht⟩
    by_cases hlt : n.dte < m.dte
    · rw [if_pos hlt]
      refine List.pairwise_cons.mpr ⟨?_, h⟩
      intro b hb
      rcases List.mem_cons.mp hb with rfl | hb
      · omega
      · have := hm b hb; omega
    · rw [if_neg hlt]
      refine List.pairwise_cons.mpr ⟨?_, ih ht⟩
      intro b hb
      have hb' := (insertAsc_perm n t).mem_iff.mp hb
      rcases List.mem_cons.mp hb' with rfl | hb'
      · omega
      · exact hm b hb'

theorem sortAsc_pairwise (l : List Note) :
    (sortAsc l).Pairwise (fun a b => a.dte ≤ b.dte) := by
  have key : ∀ (l acc : List Note), acc.Pairwise (fun a b => a.dte ≤ b.dte) →
      (l.foldl (fun acc n => insertAsc n acc) acc).Pairwise (fun a b => a.dte ≤ b.dte) := by
    intro l
    induction l with
    | nil => intro acc h; simpa
    | cons n t ih => intro acc h; exact ih _ (insertAsc_pairwise n h)
  exact key l [] (by simp)

theorem sortNotes_perm (l : List Note) : List.Perm (sortNotes l) l := by
  unfold sortNotes
  exact (List.reverse_perm _).trans (sortAsc_perm l)

theorem sortNotes_pairwise (l : List Note) :
    (sortNotes l).Pairwise (fun a b => b.dte ≤ a.dte) := by
  unfold sortNotes
  rw [List.pairwise_reverse]
  exact sortAsc_pairwise l

/-! Helper lemmas about the section-key sort of `release_notes`. -/

theorem charEq_of_toNat_eq {a b : Char} (h : a.toNat = b.toNat) : a = b :=
  Char.eq_of_val_eq (UInt32.ext h)

theorem strLt_nil (s : Str) : strLt s [] = false := by
  cases s <;> rfl

theorem strLt_connex : ∀ (a b : Str), strLt a b = false → strLt b a = true ∨ a = b := by
  intro a
  induction a with
  | nil =>
    intro b h
    cases b with
    | nil => exact Or.inr rfl
    | cons c t => simp [strLt] at h
  | cons c s ih =>
    intro b h
    cases b with
    | nil => exact Or.inl rfl
    | cons d t =>
      simp only [strLt, Bool.or_eq_false_iff, Bool.and_eq_false_iff,
        decide_eq_false_iff_not] at h
      obtain ⟨h1, h2⟩ := h
      by_cases hdc : d.toNat < c.toNat
      · exact Or.inl (by simp [strLt, hdc])
      · have hcd : c.toNat = d.toNat := by omega
        have hceq : c = d := charEq_of_toNat_eq hcd
        have hst : strLt s t = false := by
          rcases h2 with h2 | h2
          · exact absurd (by simp [hceq]) h2
          · exact h2
        rcases ih t hst with h3 | h3
        · exact Or.inl (by simp [strLt, hceq, h3])
        · exact Or.inr (by rw [hceq, h3])

/-- The order relation realised by `sortStrs` (non-strict lexicographic). -/
def strLe (a b : Str) : Prop := strLt a b = true ∨ a = b

theorem insertStr_head (x : Str) (l : List Str) :
    (insertStr x l).head? = some x ∨ (insertStr x l).head? = l.head? := by
  cases l with
  | nil => exact Or.inl rfl
  | cons y t =>
    unfold insertStr
    by_cases h : strLt x y = true
    · rw [if_pos h]; exact Or.inl rfl
    · rw [if_neg h]; exact Or.inr rfl

theorem insertStr_chain {l : List Str} (x : Str) (h : l.Chain' strLe) :
    (insertStr x l).Chain' strLe := by
  induction l with
  | nil => simp [insertStr]
  | cons y t ih =>
    unfold insertStr
    by_cases hlt : strLt x y = true
    · rw [if_pos hlt]
      exact List.Chain'.cons (Or.inl hlt) h
    · rw [if_neg hlt]
      have hyx : strLe y x := by
        rcases strLt_connex x y (by simpa using hlt) with h1 | h1
        · exact Or.inl h1
        · exact Or.inr h1.symm
      have ht : t.Chain' strLe := h.tail
      refine List.chain'_cons'.mpr ⟨?_, ih ht⟩
      intro z hz
      rcases insertStr_head x t with he | he
      · rw [he] at hz
        cases hz; exact hyx
      · rw [he] at hz
        exact (List.chain'_cons'.mp h).1 z hz

theorem sortStrs_chain (l : List Str) : (sortStrs l).Chain' strLe := by
  have key : ∀ (l acc : List Str), acc.Chain' strLe →
      (l.foldl (fun acc x => insertStr x acc) acc).Chain' strLe := by
    intro l
    induction l with
    | nil => intro acc h; simpa
    | cons x t ih => intro acc h; exact ih _ (insertStr_chain x h)
  exact key l [] (by simp)

theorem chain_head_empty {l : List Str} (hc : l.Chain' strLe) (hm : [] ∈ l) :
    l.head? = some [] := by
  induction l with
  | nil => simp at hm
  | cons y t ih =>
    rcases List.mem_cons.mp hm with he | hm'
    · rw [← he]; rfl
    · have ht := ih hc.tail hm'
      cases t with
      | nil => simp at hm'
      | cons z t' =>
        have hz : z = [] := by simpa using ht
        subst hz
        have hyz : strLe y [] := (List.chain'_cons.mp hc).1
        rcases hyz with h1 | h1
        · rw [strLt_nil] at h1; exact absurd h1 (by simp)
        · rw [h1]; rfl

theorem sortStrs_perm (l : List Str) : List.Perm (sortStrs l) l := by
  have hip : ∀ (x : Str) (l : List Str), List.Perm (insertStr x l) (x :: l) := by
    intro x l
    induction l with
    | nil => exact List.Perm.refl _
    | cons y t ih =>
      unfold insertStr
      by_cases h : strLt x y = true
      · rw [if_pos h]
      · rw [if_neg h]
        exact (ih.cons y).trans (List.Perm.swap x y t)
  have key : ∀ (l acc : List Str),
      List.Perm (l.foldl (fun acc x => insertStr x acc) acc) (acc ++ l) := by
    intro l
    induction l with
    | nil => intro acc; simp
    | cons x t ih =>
      intro acc
      have h1 := ih (insertStr x acc)
      have h2 : List.Perm (insertStr x acc ++ t) ((x :: acc) ++ t) :=
        (hip x acc).append_right t
      have h3 : List.Perm ((x :: acc) ++ t) (acc ++ x :: t) := by
        rw [List.cons_append]; exact List.perm_middle.symm
      exact (h1.trans h2).trans h3
  simpa using key l []

/-! Helper lemmas about the grouping loop of `release_notes`. -/

theorem lookupSec_update (secs : List (Str × List Str)) (n : Note) (k : Str) :
    lookupSec (secs.map (fun kv => if kv.1 = n.sec then (kv.1, kv.2 ++ [n.body]) else kv)) k =
      if (secs.find? (fun kv => kv.1 = k)).isSome ∧ k = n.sec then
        lookupSec secs k ++ [n.body]
      else lookupSec secs k := by
  induction secs with
  | nil => simp [lookupSec]
  | cons kv t ih =>
    by_cases hk : kv.1 = k
    · by_cases hn : kv.1 = n.sec
      · unfold lookupSec
        rw [List.map_cons, if_pos hn]
        rw [List.find?_cons_of_pos _ (by simpa using hk),
          List.find?_cons_of_pos _ (by simpa using hk)]
        simp [hk ▸ hn]
      · unfold lookupSec
        rw [List.map_cons, if_neg hn]
        rw [List.find?_cons_of_pos _ (by simpa using hk),
          List.find?_cons_of_pos _ (by simpa using hk)]
        have : ¬ k = n.sec := by rw [← hk]; exact hn
        simp [this]
    · by_cases hn : kv.1 = n.sec
      · unfold lookupSec
        rw [List.map_cons, if_pos hn]
        rw [List.find?_cons_of_neg _ (by simpa using hk),
          List.find?_cons_of_neg _ (by simpa using hk)]
        exact ih
      · unfold lookupSec
        rw [List.map_cons, if_neg hn]
        rw [List.find?_cons_of_neg _ (by simpa using hk),
          List.find?_cons_of_neg _ (by simpa using hk)]
        exact ih

theorem find_isSome_of_any (secs : List (Str × List Str)) (k : Str)
    (h : secs.any (fun kv => kv.1 = k) = true) :
    (secs.find? (fun kv => kv.1 = k)).isSome := by
  rcases List.any_eq_true.mp h with ⟨kv, hmem, hkv⟩
  exact List.find?_isSome.mpr ⟨kv, hmem, hkv⟩

theorem lookupSec_groupStep (secs : List (Str × List Str)) (n : Note) (k : Str) :
    lookupSec (groupStep secs n) k =
      lookupSec secs k ++ (if n.sec = k then [n.body] else []) := by
  unfold groupStep
  by_cases hany : secs.any (fun kv => kv.1 = n.sec) = true
  · rw [if_pos hany, lookupSec_update]
    by_cases hk : k = n.sec
    · rw [if_pos ⟨by rw [hk]; exact find_isSome_of_any secs n.sec hany, hk⟩]
      rw [if_pos hk.symm]
    · rw [if_neg (by tauto), if_neg (by tauto)]
      simp
  · rw [if_neg hany]
    by_cases hk : n.sec = k
    · rw [if_pos hk]
      have hfind : secs.find? (fun kv => kv.1 = k) = none := by
        rw [List.find?_eq_none]
        intro kv hkv
        intro hc
        exact hany (List.any_eq_true.mpr ⟨kv, hkv, by simp [hc, hk]⟩)
      unfold lookupSec
      rw [List.find?_append, hfind]
      simp [hfind, List.find?_cons, hk]
    · rw [if_neg hk]
      have hstep : (secs ++ [(n.sec, [n.body])]).find? (fun kv => kv.1 = k) =
          secs.find? (fun kv => kv.1 = k) := by
        rw [List.find?_append]
        cases hf : secs.find? (fun kv => kv.1 = k)
        · simp [List.find?_cons, hk]
        · rfl
      unfold lookupSec
      rw [hstep]
      simp

theorem lookupSec_foldl (l : List Note) :
    ∀ (acc : List (Str × List Str)) (k : Str),
      lookupSec (l.foldl groupStep acc) k =
        lookupSec acc k ++ (l.filter (fun n => n.sec = k)).map (fun n => n.body) := by
  induction l with
  | nil => intro acc k; simp
  | cons n t ih =>
    intro acc k
    rw [List.foldl_cons, ih, lookupSec_groupStep]
    by_cases hk : n.sec = k
    · rw [if_pos hk, List.filter_cons_of_pos (by simpa using hk)]
      simp
    · rw [if_neg hk, List.filter_cons_of_neg (by simpa using hk)]
      simp

theorem lookupSec_groupSections (ordered : List Note) (k : Str) :
    lookupSec (groupSections ordered) k =
      (ordered.filter (fun n => n.sec = k)).map (fun n => n.body) := by
  unfold groupSections
  rw [lookupSec_foldl]
  simp [lookupSec]

/-! Helper lemmas about the `substitutes` scan of `add_note`. -/

theorem digitsToNat_digits {ds : Str} {n : Nat} (h : digitsToNat ds = some n) :
    ∀ c ∈ ds, c.isDigit = true := by
  unfold digitsToNat at h
  by_cases he : ds = []
  · rw [if_pos he] at h; exact absurd h (by simp)
  · rw [if_neg he] at h
    by_cases ha : ds.all (fun c => c.isDigit) = true
    · exact fun c hc => List.all_eq_true.mp ha c hc
    · rw [if_neg ha] at h; exact absurd h (by simp)

theorem pyInt_chars {ds : Str} {k : Int} (h : pyInt ds = some k) :
    ∀ c ∈ ds, c.isDigit = true ∨ c = '+' ∨ c = '-' := by
  intro c hc
  unfold pyInt at h
  by_cases hp : ds.head? = some '+'
  · rw [if_pos hp] at h
    rcases Option.map_eq_some'.mp h with ⟨n, hn, _⟩
    cases ds with
    | nil => simp at hc
    | cons c' t =>
      rcases List.mem_cons.mp hc with rfl | hc'
      · exact Or.inr (Or.inl (by simpa using hp))
      · exact Or.inl (digitsToNat_digits hn c (by simpa using hc'))
  · rw [if_neg hp] at h
    by_cases hm : ds.head? = some '-'
    · rw [if_pos hm] at h
      rcases Option.map_eq_some'.mp h with ⟨n, hn, _⟩
      cases ds with
      | nil => simp at hc
      | cons c' t =>
        rcases List.mem_cons.mp hc with rfl | hc'
        · exact Or.inr (Or.inr (by simpa using hm))
        · exact Or.inl (digitsToNat_digits hn c (by simpa using hc'))
    · rw [if_neg hm] at h
      rcases Option.map_eq_some'.mp h with ⟨n, hn, _⟩
      exact Or.inl (digitsToNat_digits hn c hc)

theorem bracket_not_mem_token {bit : Str} {k : Int}
    (hhead : bit.head? = some '#') (hint : pyInt (bit.drop 1) = some k) :
    ('[' : Char) ∉ bit := by
  intro hmem
  cases bit with
  | nil => simp at hhead
  | cons b t =>
    have hb : b = '#' := by simpa using hhead
    rcases List.mem_cons.mp hmem with he | hmem'
    · rw [hb] at he; exact absurd he (by decide)
    · have ht : pyInt t = some k := by simpa using hint
      rcases pyInt_chars ht '[' hmem' with h | h | h
      · exact absurd h (by decide)
      · exact absurd h (by decide)
      · exact absurd h (by decide)

theorem scanStep_cases (lookup : Int → Option Str)
    (st : List (Str × Str) × List Str) (p : Str × Str) :
    (scanStep lookup st p = st ∧
      ((p.2.head? = some '#' && close_issue.contains (pyLower p.1)) = false ∨
        pyInt (p.2.drop 1) = none ∨ st.1.any (fun kv => kv.1 = p.2) = true)) ∨
    ((p.2.head? = some '#' && close_issue.contains (pyLower p.1)) = true ∧
      st.1.any (fun kv => kv.1 = p.2) = false ∧
      ∃ k', pyInt (p.2.drop 1) = some k' ∧
        ((lookup k' = none ∧ scanStep lookup st p = (st.1, st.2 ++ [p.2])) ∨
          (∃ url, lookup k' = some url ∧
            scanStep lookup st p = (st.1 ++ [(p.2, url)], st.2 ++ [p.2])))) := by
  unfold scanStep
  by_cases hguard : (p.2.head? = some '#' && close_issue.contains (pyLower p.1)) = true
  · rw [if_pos hguard]
    rcases hkint : pyInt (p.2.drop 1) with _ | k'
    · exact Or.inl ⟨rfl, Or.inr (Or.inl rfl)⟩
    · dsimp only
      by_cases hmem : st.1.any (fun kv => kv.1 = p.2) = true
      · rw [if_pos hmem]
        exact Or.inl ⟨rfl, Or.inr (Or.inr hmem)⟩
      · rw [if_neg hmem]
        have hmemf : st.1.any (fun kv => kv.1 = p.2) = false := by
          rwa [Bool.not_eq_true] at hmem
        rcases hlk : lookup k' with _ | url
        · exact Or.inr ⟨hguard, hmemf, k', rfl, Or.inl ⟨hlk, rfl⟩⟩
        · exact Or.inr ⟨hguard, hmemf, k', rfl, Or.inr ⟨url, hlk, rfl⟩⟩
  · rw [if_neg hguard]
    exact Or.inl ⟨rfl, Or.inl (by simpa using hguard)⟩

/-- Properties every entry that the scan can place into `substitutes`
satisfies: the token was the second component of a scanned pair, starts
with `#`, parses as a number, and its lookup succeeded with the recorded
url. -/
def SubEntry (lookup : Int → Option Str) (pairs : List (Str × Str))
    (e : Str × Str) : Prop :=
  e.1 ∈ pairs.map (fun p => p.2) ∧ e.1.head? = some '#' ∧
    ∃ k, pyInt (e.1.drop 1) = some k ∧ lookup k = some e.2

theorem scan_subs_origin (lookup : Int → Option Str) (pairs : List (Str × Str)) :
    ∀ init : List (Str × Str) × List Str,
      ∀ e ∈ (pairs.foldl (scanStep lookup) init).1,
        e ∈ init.1 ∨ SubEntry lookup pairs e := by
  induction pairs with
  | nil => intro init e he; exact Or.inl he
  | cons p t ih =>
    intro init e he
    rw [List.foldl_cons] at he
    rcases ih (scanStep lookup init p) e he with h | h
    · rcases scanStep_cases lookup init p with ⟨heq, _⟩ | ⟨hguard, _, k', hkint, hbr⟩
      · rw [heq] at h; exact Or.inl h
      · rcases hbr with ⟨_, heq⟩ | ⟨url, hlk, heq⟩
        · rw [heq] at h; exact Or.inl h
        · rw [heq] at h
          rcases List.mem_append.mp h with h2 | h2
          · exact Or.inl h2
          · have he2 : e = (p.2, url) := by simpa using h2
            subst he2
            have hg := hguard
            rw [Bool.and_eq_true] at hg
            refine Or.inr ⟨by simp, by simpa using hg.1, k', hkint, hlk⟩
    · exact Or.inr ⟨by simp only [List.map_cons]; exact List.mem_cons_of_mem _ h.1,
        h.2.1, h.2.2⟩

theorem scanSubstitutes_origin (lookup : Int → Option Str) (pairs : List (Str × Str)) :
    ∀ e ∈ (scanSubstitutes lookup pairs).1, SubEntry lookup pairs e := by
  intro e he
  rcases scan_subs_origin lookup pairs ([], []) e he with h | h
  · simp at h
  · exact h

theorem scan_subs_nil {lookup : Int → Option Str} (hfail : ∀ k, lookup k = none)
    (pairs : List (Str × Str)) :
    ∀ init : List (Str × Str) × List Str,
      (pairs.foldl (scanStep lookup) init).1 = init.1 := by
  induction pairs with
  | nil => intro init; rfl
  | cons p t ih =>
    intro init
    rw [List.foldl_cons]
    rcases scanStep_cases lookup init p with ⟨heq, _⟩ | ⟨_, _, k', _, hbr⟩
    · rw [heq, ih init]
    · rcases hbr with ⟨_, heq⟩ | ⟨url, hlk, _⟩
      · rw [heq, ih (init.1, init.2 ++ [p.2])]
      · rw [hfail k'] at hlk
        exact absurd hlk (by simp)

theorem count_append_ne {tok x : Str} (l : List Str) (h : x ≠ tok) :
    (l ++ [x]).count tok = l.count tok := by
  rw [List.count_append]
  have h0 : List.count tok [x] = 0 := by
    rw [List.count_eq_zero]
    simp [Ne.symm h]
  omega

theorem not_mem_subs_of_any_false {st : List (Str × Str)} {tok : Str}
    (h : st.any (fun kv => kv.1 = tok) = false) :
    tok ∉ st.map (fun kv => kv.1) := by
  intro hmem
  rcases List.mem_map.mp hmem with ⟨kv, hkv, hkveq⟩
  have h2 : st.any (fun kv => kv.1 = tok) = true :=
    List.any_eq_true.mpr ⟨kv, hkv, by simpa using hkveq⟩
  rw [h] at h2
  exact absurd h2 (by simp)

theorem scan_trace_retry {lookup : Int → Option Str} {tok : Str} {k : Int}
    (hhead : tok.head? = some '#') (hint : pyInt (tok.drop 1) = some k)
    (hfail : lookup k = none) (pairs : List (Str × Str)) :
    ∀ init : List (Str × Str) × List Str, tok ∉ init.1.map (fun kv => kv.1) →
      (pairs.foldl (scanStep lookup) init).2.count tok =
        init.2.count tok +
          pairs.countP (fun p => p.2 = tok && close_issue.contains (pyLower p.1)) := by
  induction pairs with
  | nil => intro init _; simp
  | cons p t ih =>
    intro init hnot
    rw [List.foldl_cons, List.countP_cons]
    rcases scanStep_cases lookup init p with ⟨heq, hwhy⟩ | ⟨hguard, hmem, k', hkint, hbr⟩
    · rw [heq, ih init hnot]
      have hpred : (decide (p.2 = tok) && close_issue.contains (pyLower p.1)) = false := by
        by_cases htok : p.2 = tok
        · rcases hwhy with hw | hw | hw
          · rcases Bool.and_eq_false_iff.mp hw with h | h
            · rw [htok, hhead] at h
              exact absurd h (by simp)
            · simp only [h, Bool.and_false]
          · rw [htok, hint] at hw; exact absurd hw (by simp)
          · exfalso
            apply hnot
            rcases List.any_eq_true.mp hw with ⟨kv, hkv, hkveq⟩
            exact List.mem_map.mpr ⟨kv, hkv, by rw [← htok]; simpa using hkveq⟩
        · simp [htok]
      rw [hpred]
      simp
    · by_cases htok : p.2 = tok
      · have hk2 : k' = k := by
          rw [htok, hint] at hkint
          simpa using hkint.symm
        rcases hbr with ⟨_, heq⟩ | ⟨url, hlk, _⟩
        · rw [heq]
          rw [ih (init.1, init.2 ++ [p.2]) (by simpa using hnot)]
          have hcnt : (init.2 ++ [p.2]).count tok = init.2.count tok + 1 := by
            rw [List.count_append, htok]
            simp
          rw [hcnt]
          have hpred : (decide (p.2 = tok) && close_issue.contains (pyLower p.1)) = true := by
            have hg := hguard
            rw [Bool.and_eq_true] at hg
            rw [Bool.and_eq_true]
            exact ⟨by simp [htok], hg.2⟩
          rw [hpred]
          simp
          omega
        · rw [hk2, hfail] at hlk
          exact absurd hlk (by simp)
      · have hpred : (decide (p.2 = tok) && close_issue.contains (pyLower p.1)) = false := by
          simp [htok]
        rw [hpred]
        rcases hbr with ⟨_, heq⟩ | ⟨url, _, heq⟩
        · rw [heq]
          rw [ih (init.1, init.2 ++ [p.2]) (by simpa using hnot)]
          rw [count_append_ne init.2 htok]
          simp
        · rw [heq]
          have hnot2 : tok ∉ (init.1 ++ [(p.2, url)]).map (fun kv => kv.1) := by
            rw [List.map_append]
            intro hmm
            rcases List.mem_append.mp hmm with hmm | hmm
            · exact hnot hmm
            · have : tok = p.2 := by simpa using hmm
              exact htok this.symm
          rw [ih (init.1 ++ [(p.2, url)], init.2 ++ [p.2]) hnot2]
          rw [count_append_ne init.2 htok]
          simp

theorem scan_trace_nodup {lookup : Int → Option Str}
    (hok : ∀ k, (lookup k).isSome = true) (pairs : List (Str × Str)) :
    ∀ init : List (Str × Str) × List Str,
      init.2.Nodup → (∀ b ∈ init.2, b ∈ init.1.map (fun kv => kv.1)) →
      ((pairs.foldl (scanStep lookup) init).2.Nodup ∧
        ∀ b ∈ (pairs.foldl (scanStep lookup) init).2,
          b ∈ (pairs.foldl (scanStep lookup) init).1.map (fun kv => kv.1)) := by
  induction pairs with
  | nil => intro init h1 h2; exact ⟨h1, h2⟩
  | cons p t ih =>
    intro init h1 h2
    rw [List.foldl_cons]
    rcases scanStep_cases lookup init p with ⟨heq, _⟩ | ⟨_, hmem, k', _, hbr⟩
    · rw [heq]; exact ih init h1 h2
    · rcases hbr with ⟨hlk, _⟩ | ⟨url, _, heq⟩
      · have hsome := hok k'
        rw [hlk] at hsome
        exact absurd hsome (by simp)
      · rw [heq]
        apply ih
        · rw [List.nodup_append]
          refine ⟨h1, List.nodup_singleton _, ?_⟩
          intro b hb hbs
          have hb2 : b = p.2 := by simpa using hbs
          have hbm := h2 b hb
          rw [hb2] at hbm
          exact not_mem_subs_of_any_false (by simpa using hmem) hbm
        · intro b hb
          rw [List.map_append]
          rcases List.mem_append.mp hb with hb | hb
          · exact List.mem_append_left _ (h2 b hb)
          · apply List.mem_append_right
            simpa using hb

theorem mem_of_mem_tail {α : Type} {x : α} {l : List α} (h : x ∈ l.tail) : x ∈ l := by
  cases l with
  | nil => simp at h
  | cons a t => exact List.mem_cons_of_mem a h

theorem fold_subLink_mem {subs : List (Str × Str)} {m : Str}
    (hbr : ('[' : Char) ∈ m) (htoks : ∀ e ∈ subs, ('[' : Char) ∉ e.1) :
    ('[' : Char) ∈ subs.foldl subLink m := by
  induction subs generalizing m with
  | nil => exact hbr
  | cons e rest ih =>
    rw [List.foldl_cons]
    exact ih (replaceAll_mem _ hbr (htoks e (by simp)))
      (fun e2 he2 => htoks e2 (List.mem_cons_of_mem _ he2))

theorem bracket_after_first {m : Str} (e0 : Str × Str) (rest : List (Str × Str))
    (hocc : occursIn e0.1 m) (hne : e0.1 ≠ [])
    (htoks : ∀ e ∈ rest, ('[' : Char) ∉ e.1) :
    ('[' : Char) ∈ (e0 :: rest).foldl subLink m := by
  rw [List.foldl_cons]
  apply fold_subLink_mem _ htoks
  have hr : occursIn (mdLink e0.1 e0.2) (replaceAll m e0.1 (mdLink e0.1 e0.2)) :=
    replaceAll_rep_occurs hne hocc
  exact mem_of_occursIn (by simp [mdLink]) hr

theorem mkNote_inv {message key sec0 : Str} {dte : Nat} {eid entry_url : Str} {n : Note}
    (h : mkNote message key sec0 dte eid entry_url = some n) :
    pyStrip n.body ≠ [] ∧ pyLower n.sec = n.sec := by
  unfold mkNote at h
  cases hps : pyStrip (replaceAll message key []) with
  | nil => rw [hps] at h; exact absurd h (by simp)
  | cons b bt =>
    rw [hps] at h
    obtain rfl : (⟨dte, pyLower sec0, capfirst (b :: bt) ++ ' ' :: mdLink eid entry_url⟩ : Note) = n :=
      Option.some.inj h
    constructor
    · apply pyStrip_ne_nil (c := '[')
      · show ('[' : Char) ∈ capfirst (b :: bt) ++ ' ' :: mdLink eid entry_url
        apply List.mem_append_right
        apply List.mem_cons_of_mem
        simp [mdLink]
      · decide
    · exact pyLower_idem sec0

theorem subEntry_ne_nil {lookup : Int → Option Str} {pairs : List (Str × Str)}
    {e : Str × Str} (h : SubEntry lookup pairs e) : e.1 ≠ [] := by
  obtain ⟨_, hhead, _⟩ := h
  cases he : e.1 with
  | nil => rw [he] at hhead; simp at hhead
  | cons a b => simp

theorem subEntry_mem_split {lookup : Int → Option Str} {message : Str} {e : Str × Str}
    (h : SubEntry lookup ((pySplit message).dropLast.zip (pySplit message).tail) e) :
    e.1 ∈ pySplit message := by
  obtain ⟨hmem, _⟩ := h
  rcases List.mem_map.mp hmem with ⟨p, hp, he⟩
  have h2 := (List.of_mem_zip hp).2
  rw [← he]
  exact mem_of_mem_tail h2

theorem scan_body_strip {lookup : Int → Option Str} {message : Str}
    {e0 : Str × Str} {rest : List (Str × Str)}
    (hsc : (scanSubstitutes lookup
        ((pySplit message).dropLast.zip (pySplit message).tail)).1 = e0 :: rest) :
    pyStrip ((e0 :: rest).foldl subLink message) ≠ [] := by
  have hsubs := scanSubstitutes_origin lookup
    ((pySplit message).dropLast.zip (pySplit message).tail)
  rw [hsc] at hsubs
  have he0 := hsubs e0 (by simp)
  have hocc : occursIn e0.1 message := pySplit_mem_occursIn (subEntry_mem_split he0)
  have hne : e0.1 ≠ [] := subEntry_ne_nil he0
  have hbr : ('[' : Char) ∈ (e0 :: rest).foldl subLink message := by
    apply bracket_after_first _ _ hocc hne
    intro e he
    have hse := hsubs e (List.mem_cons_of_mem _ he)
    obtain ⟨_, hhead, k, hkint, _⟩ := hse
    exact bracket_not_mem_token hhead hkint
  exact pyStrip_ne_nil hbr (by decide)

/-! Helper lemmas locating substring occurrences inside the assembled
note body, for the strengthened form of claim C9. -/

theorem occursIn_of_firstOccur_isSome {s pat : Str}
    (h : (firstOccur s pat).isSome = true) : occursIn pat s := by
  induction s with
  | nil =>
    unfold firstOccur at h
    by_cases hp : pat.isPrefixOf ([] : Str) = true
    · have hnil : pat = [] := by
        cases pat with
        | nil => rfl
        | cons c t => simp [List.isPrefixOf] at hp
      exact ⟨[], [], by simp [hnil]⟩
    · rw [if_neg hp] at h
      simp at h
  | cons c t ih =>
    unfold firstOccur at h
    by_cases hp : pat.isPrefixOf (c :: t) = true
    · exact ⟨[], (c :: t).drop pat.length, by simpa using isPrefixOf_decomp hp⟩
    · rw [if_neg hp] at h
      have h2 : (firstOccur t pat).isSome = true := by
        cases hfo : firstOccur t pat with
        | none => rw [hfo] at h; simp at h
        | some i => rfl
      obtain ⟨u, v, huv⟩ := ih h2
      exact ⟨c :: u, v, by simp [huv]⟩

theorem occursIn_iff_contains {s pat : Str} :
    occursIn pat s ↔ containsSubstr s pat = true :=
  ⟨firstOccur_isSome_of_occursIn, occursIn_of_firstOccur_isSome⟩

theorem occursIn_nil {pat : Str} (h : occursIn pat []) : pat = [] := by
  obtain ⟨u, v, he⟩ := h
  have hlen := congrArg List.length he
  simp at hlen
  exact List.eq_nil_of_length_eq_zero (by omega)

theorem occursIn_mid {pat m R : Str} (h : occursIn pat m)
    (hdec : ∃ pre post, R = pre ++ m ++ post) : occursIn pat R := by
  obtain ⟨u, v, rfl⟩ := h
  obtain ⟨pre, post, rfl⟩ := hdec
  exact ⟨pre ++ u, v ++ post, by simp⟩

theorem dropTrail_decomp (x : Str) :
    x = dropTrail x ++ (x.reverse.takeWhile pyIsSpace).reverse := by
  unfold dropTrail
  calc x = x.reverse.reverse := by rw [List.reverse_reverse]
    _ = (x.reverse.takeWhile pyIsSpace ++ x.reverse.dropWhile pyIsSpace).reverse := by
        rw [List.takeWhile_append_dropWhile]
    _ = (x.reverse.dropWhile pyIsSpace).reverse ++ (x.reverse.takeWhile pyIsSpace).reverse := by
        rw [List.reverse_append]

theorem occursIn_pyStrip {pat R : Str} (h : occursIn pat (pyStrip R)) :
    occursIn pat R := by
  unfold pyStrip at h
  apply occursIn_mid h
  refine ⟨R.takeWhile pyIsSpace,
    ((R.dropWhile pyIsSpace).reverse.takeWhile pyIsSpace).reverse, ?_⟩
  calc R = R.takeWhile pyIsSpace ++ R.dropWhile pyIsSpace :=
        (List.takeWhile_append_dropWhile pyIsSpace R).symm
    _ = R.takeWhile pyIsSpace ++ (dropTrail (R.dropWhile pyIsSpace) ++
        ((R.dropWhile pyIsSpace).reverse.takeWhile pyIsSpace).reverse) := by
        rw [← dropTrail_decomp]
    _ = R.takeWhile pyIsSpace ++ dropTrail (R.dropWhile pyIsSpace) ++
        ((R.dropWhile pyIsSpace).reverse.takeWhile pyIsSpace).reverse := by
        rw [List.append_assoc]

theorem toUpper_hash {c : Char} (h : c.toUpper = '#') : c = '#' := by
  unfold Char.toUpper at h
  by_cases hr : c.toNat ≥ 97 ∧ c.toNat ≤ 122
  · rw [if_pos hr] at h
    have h2 := congrArg Char.toNat h
    rw [charToNat_ofNat (by omega)] at h2
    have h3 : ('#' : Char).toNat = 35 := rfl
    rw [h3] at h2
    omega
  · rw [if_neg hr] at h
    exact h

theorem occursIn_capfirst_hash {pat x : Str} (hhead : pat.head? = some '#')
    (h : occursIn pat (capfirst x)) : occursIn pat x := by
  cases x with
  | nil =>
    have hnil : pat = [] := occursIn_nil h
    rw [hnil] at hhead
    simp at hhead
  | cons c t =>
    obtain ⟨u, v, he⟩ := h
    cases u with
    | nil =>
      cases pat with
      | nil => simp at hhead
      | cons p pt =>
        have hp : p = '#' := by simpa using hhead
        rw [List.nil_append, show (p :: pt) ++ v = p :: (pt ++ v) by simp] at he
        have hinj := (List.cons.injEq _ _ _ _).mp he
        have hc : c = '#' := toUpper_hash (by rw [hinj.1, hp])
        refine ⟨[], v, ?_⟩
        rw [List.nil_append, show (p :: pt) ++ v = p :: (pt ++ v) by simp]
        rw [hc, hp, hinj.2]
    | cons a u' =>
      have he2 : Char.toUpper c :: t = a :: (u' ++ pat ++ v) := by
        simpa [capfirst] using he
      have hinj := (List.cons.injEq _ _ _ _).mp he2
      exact ⟨c :: u', v, by simp [hinj.2]⟩

theorem pref_no_delim {d : Char} :
    ∀ (pat x v y : Str), x ++ d :: y = pat ++ v → d ∉ pat → ∃ w, x = pat ++ w := by
  intro pat
  induction pat with
  | nil => intro x v y _ _; exact ⟨x, rfl⟩
  | cons p pt ih =>
    intro x v y he hd
    cases x with
    | nil =>
      rw [List.nil_append, show (p :: pt) ++ v = p :: (pt ++ v) by simp] at he
      have hdp : d = p := ((List.cons.injEq _ _ _ _).mp he).1
      exact absurd (by rw [hdp]; exact List.mem_cons_self _ _) hd
    | cons a x' =>
      rw [show (a :: x') ++ d :: y = a :: (x' ++ d :: y) by simp,
        show (p :: pt) ++ v = p :: (pt ++ v) by simp] at he
      have hinj := (List.cons.injEq _ _ _ _).mp he
      obtain ⟨w, hw⟩ := ih x' v y hinj.2 (fun hm => hd (List.mem_cons_of_mem _ hm))
      exact ⟨w, by rw [hinj.1, hw]; simp⟩

theorem occursIn_append_delim {pat : Str} {d : Char} (hd : d ∉ pat) :
    ∀ (x y : Str), occursIn pat (x ++ d :: y) → occursIn pat x ∨ occursIn pat y := by
  intro x
  induction x with
  | nil =>
    intro y h
    obtain ⟨u, v, he⟩ := h
    rw [List.nil_append] at he
    cases u with
    | nil =>
      rw [List.nil_append] at he
      cases pat with
      | nil => exact Or.inl ⟨[], [], rfl⟩
      | cons p pt =>
        rw [show (p :: pt) ++ v = p :: (pt ++ v) by simp] at he
        have hdp : d = p := ((List.cons.injEq _ _ _ _).mp he).1
        exact absurd (by rw [hdp]; exact List.mem_cons_self _ _) hd
    | cons a u' =>
      rw [show (a :: u') ++ pat ++ v = a :: (u' ++ pat ++ v) by simp] at he
      have hinj := (List.cons.injEq _ _ _ _).mp he
      exact Or.inr ⟨u', v, hinj.2⟩
  | cons b x' ih =>
    intro y h
    obtain ⟨u, v, he⟩ := h
    cases u with
    | nil =>
      rw [List.nil_append] at he
      obtain ⟨w, hw⟩ := pref_no_delim pat (b :: x') v y (by simpa using he) hd
      exact Or.inl ⟨[], w, by simpa using hw⟩
    | cons a u' =>
      rw [show (b :: x') ++ d :: y = b :: (x' ++ d :: y) by simp,
        show (a :: u') ++ pat ++ v = a :: (u' ++ pat ++ v) by simp] at he
      have hinj := (List.cons.injEq _ _ _ _).mp he
      rcases ih y ⟨u', v, hinj.2⟩ with hl | hr
      · obtain ⟨uu, vv, huv⟩ := hl
        exact Or.inl ⟨b :: uu, vv, by simp [huv]⟩
      · exact Or.inr hr

theorem occursIn_note_body {pat B eid url : Str} (hpat : pat ≠ [])
    (hsp : (' ' : Char) ∉ pat) (hlb : ('[' : Char) ∉ pat) (hrb : (']' : Char) ∉ pat)
    (hlp : ('(' : Char) ∉ pat) (hrp : (')' : Char) ∉ pat)
    (h : occursIn pat (B ++ ' ' :: mdLink eid url)) :
    occursIn pat B ∨ occursIn pat eid ∨ occursIn pat url := by
  rcases occursIn_append_delim hsp B (mdLink eid url) h with h1 | h1
  · exact Or.inl h1
  · have hmd : mdLink eid url = '[' :: (eid ++ (']' :: ('(' :: (url ++ [')'])))) := by
      simp [mdLink]
    rw [hmd] at h1
    have h1b : occursIn pat ([] ++ '[' :: (eid ++ (']' :: ('(' :: (url ++ [')']))))) := h1
    rcases occursIn_append_delim hlb [] (eid ++ (']' :: ('(' :: (url ++ [')'])))) h1b
        with h2 | h2
    · exact absurd (occursIn_nil h2) hpat
    · rcases occursIn_append_delim hrb eid ('(' :: (url ++ [')'])) h2 with h3 | h3
      · exact Or.inr (Or.inl h3)
      · have h3b : occursIn pat ([] ++ '(' :: (url ++ [')'])) := h3
        rcases occursIn_append_delim hlp [] (url ++ [')']) h3b with h4 | h4
        · exact absurd (occursIn_nil h4) hpat
        · have h4b : occursIn pat (url ++ ')' :: []) := h4
          rcases occursIn_append_delim hrp url [] h4b with h5 | h5
          · exact Or.inr (Or.inr h5)
          · exact absurd (occursIn_nil h5) hpat

theorem marker_not_in_body {message eid url : Str} {b : Char} {bt : Str}
    (hnb : ¬ occursIn markerKey (replaceAll message markerKey []))
    (hne : ¬ occursIn markerKey eid) (hnu : ¬ occursIn markerKey url)
    (hps : pyStrip (replaceAll message markerKey []) = b :: bt) :
    containsSubstr (capfirst (b :: bt) ++ ' ' :: mdLink eid url) markerKey = false := by
  by_contra hc
  have hcc : containsSubstr (capfirst (b :: bt) ++ ' ' :: mdLink eid url) markerKey = true := by
    cases hb : containsSubstr (capfirst (b :: bt) ++ ' ' :: mdLink eid url) markerKey with
    | false => exact absurd hb hc
    | true => rfl
  have hocc := occursIn_iff_contains.mpr hcc
  rcases occursIn_note_body (by decide) (by decide) (by decide) (by decide)
      (by decide) (by decide) hocc with h1 | h1 | h1
  · have h2 := occursIn_capfirst_hash (by decide) h1
    rw [← hps] at h2
    exact hnb (occursIn_pyStrip h2)
  · exact hne h1
  · exact hnu h1

/-! The claim theorems. -/

/-- Claim C2: on every message whose first marker occurrence is
immediately followed by `=` with no non-whitespace character after it,
`add_note` raises `IndexError`; on every other message (marker present
or not) it completes without raising. -/
theorem c2_indexError_iff_empty_token (lookup : Int → Option Str) (message : Str)
    (dte : Nat) (eid entry_url : Str) :
    isIndexError (add_note lookup message dte eid entry_url) = markerEqNoToken message := by
  unfold add_note markerEqNoToken
  cases hfo : firstOccur message markerKey with
  | none =>
    dsimp only
    cases hsc : (scanSubstitutes lookup
        ((pySplit message).dropLast.zip (pySplit message).tail)).1 with
    | nil => rfl
    | cons e rest => rfl
  | some index =>
    dsimp only
    by_cases heq : (message.drop (index + markerKey.length)).head? = some '='
    · rw [if_pos heq, if_pos heq]
      cases hsp : pySplit (message.drop (index + markerKey.length + 1)) with
      | nil => rfl
      | cons s l => rfl
    · rw [if_neg heq, if_neg heq]
      rfl

/-- Claim C6: for a message with no `#release-note` marker (its only
release-note signal can then be a close-keyword issue reference), if
every issue lookup fails then `add_note` returns normally and appends no
note. -/
theorem c6_all_lookups_fail_no_note (lookup : Int → Option Str) (message : Str)
    (dte : Nat) (eid entry_url : Str)
    (hmarker : firstOccur message markerKey = none)
    (hfail : ∀ k, lookup k = none) :
    noteOf (add_note lookup message dte eid entry_url) = some none := by
  unfold add_note
  rw [hmarker]
  dsimp only
  have hnil : (scanSubstitutes lookup
      ((pySplit message).dropLast.zip (pySplit message).tail)).1 = [] :=
    scan_subs_nil hfail _ ([], [])
  rw [hnil]
  rfl

/-- Witness for C6 at the message `fixes #3` with a lookup that always
fails. -/
theorem c6_witness :
    noteOf (add_note (fun _ => none) (str "fixes #3") 0 (str "e") (str "w")) = some none :=
  c6_all_lookups_fail_no_note (fun _ => none) (str "fixes #3") 0 (str "e") (str "w")
    (by rfl) (fun _ => rfl)

/-- Claim C7: every note `add_note` appends has a body that is non-empty
after whitespace trimming and a section key that is fully lowercased;
and the boundary message consisting of exactly `#release-note` appends
no note. -/
theorem c7_accumulator_invariant :
    (∀ (lookup : Int → Option Str) (message : Str) (dte : Nat) (eid entry_url : Str)
        (r : AddNoteResult) (n : Note),
        add_note lookup message dte eid entry_url = .ok r → r.note = some n →
        pyStrip n.body ≠ [] ∧ pyLower n.sec = n.sec) ∧
    (∀ (lookup : Int → Option Str) (dte : Nat) (eid entry_url : Str),
        add_note lookup markerKey dte eid entry_url = .ok ⟨none, []⟩) := by
  constructor
  · intro lookup message dte eid entry_url r n hok hn
    unfold add_note at hok
    cases hfo : firstOccur message markerKey with
    | none =>
      rw [hfo] at hok
      dsimp only at hok
      cases hsc : (scanSubstitutes lookup
          ((pySplit message).dropLast.zip (pySplit message).tail)).1 with
      | nil =>
        rw [hsc] at hok
        obtain rfl : (⟨none, _⟩ : AddNoteResult) = r := Except.ok.inj hok
        simp at hn
      | cons e0 rest =>
        rw [hsc] at hok
        obtain rfl : (⟨some ⟨dte, [], (e0 :: rest).foldl subLink message⟩, _⟩ :
            AddNoteResult) = r := Except.ok.inj hok
        obtain rfl : (⟨dte, [], (e0 :: rest).foldl subLink message⟩ : Note) = n :=
          Option.some.inj hn
        exact ⟨scan_body_strip hsc, rfl⟩
    | some index =>
      rw [hfo] at hok
      dsimp only at hok
      by_cases heq : (message.drop (index + markerKey.length)).head? = some '='
      · rw [if_pos heq] at hok
        cases hsp : pySplit (message.drop (index + markerKey.length + 1)) with
        | nil => rw [hsp] at hok; exact absurd hok (by simp)
        | cons s l =>
          rw [hsp] at hok
          obtain rfl : (⟨mkNote message (markerKey ++ '=' :: s) s dte eid entry_url, []⟩ :
              AddNoteResult) = r := Except.ok.inj hok
          exact mkNote_inv (by simpa using hn)
      · rw [if_neg heq] at hok
        obtain rfl : (⟨mkNote message markerKey [] dte eid entry_url, []⟩ :
            AddNoteResult) = r := Except.ok.inj hok
        exact mkNote_inv (by simpa using hn)
  · intro lookup dte eid entry_url
    rfl

/-- Witness for C7 at the message `hi #release-note=AB yo`. -/
theorem c7_witness :
    pyStrip (str "Hi  yo [e](w)") ≠ [] ∧ pyLower (str "ab") = str "ab" :=
  c7_accumulator_invariant.1 (fun _ => none) (str "hi #release-note=AB yo") 7
    (str "e") (str "w") ⟨some ⟨7, str "ab", str "Hi  yo [e](w)"⟩, []⟩
    ⟨7, str "ab", str "Hi  yo [e](w)"⟩ (by rfl) (by rfl)

/-- Counterexample to claim C9 as stated: in the message
`#release#release-note-note` the (single) marker occurrence is not
followed by `=`, yet deleting the marker splices the surrounding text
into a fresh `#release-note`, so the emitted body does contain the
literal marker text. -/
theorem c9_counterexample :
    noteOf (add_note (fun _ => none) (str "#release#release-note-note") 0
        (str "abc1234") (str "w")) =
      some (some ⟨0, [], str "#release-note [abc1234](w)"⟩) ∧
    containsSubstr (str "#release-note [abc1234](w)") markerKey = true :=
  ⟨rfl, rfl⟩

/-- Claim C9 as amended: for every message whose first marker occurrence
is not followed by `=`, the emitted note (when one is emitted) has the
empty section, and its body is the message with every occurrence of the
literal marker removed (left to right, non-overlapping), trimmed,
capitalized, and suffixed with the entry link.  Every marker occurrence
of the original message is thereby deleted, and the body contains no
occurrence of the marker unless the deletion spliced the surrounding
text into a fresh occurrence (or the entry id or entry URL themselves
contain the marker): when none of those hold, the body does not contain
the literal marker text. -/
theorem c9_no_eq_empty_section (lookup : Int → Option Str) (message : Str)
    (dte : Nat) (eid entry_url : Str) (index : Nat)
    (hfo : firstOccur message markerKey = some index)
    (hne : (message.drop (index + markerKey.length)).head? ≠ some '=') :
    ∃ r, add_note lookup message dte eid entry_url = .ok r ∧
      ∀ n, r.note = some n → n.sec = [] ∧
        n.body = capfirst (pyStrip (replaceAll message markerKey [])) ++
          ' ' :: mdLink eid entry_url ∧
        (¬ occursIn markerKey (replaceAll message markerKey []) →
          ¬ occursIn markerKey eid → ¬ occursIn markerKey entry_url →
          containsSubstr n.body markerKey = false) := by
  unfold add_note
  rw [hfo]
  dsimp only
  rw [if_neg hne]
  refine ⟨_, rfl, ?_⟩
  intro n hn
  unfold mkNote at hn
  cases hps : pyStrip (replaceAll message markerKey []) with
  | nil => rw [hps] at hn; exact absurd hn (by simp)
  | cons b bt =>
    rw [hps] at hn
    obtain rfl : (⟨dte, pyLower [], capfirst (b :: bt) ++ ' ' :: mdLink eid entry_url⟩ :
        Note) = n := Option.some.inj hn
    refine ⟨rfl, rfl, ?_⟩
    intro hnb hneid hnurl
    exact marker_not_in_body hnb hneid hnurl hps

/-- Witness for the amended C9 at the message `ok #release-note done`:
the emitted note has empty section, the stated body, and — since no
splice happens there — a body free of the marker. -/
theorem c9_witness :
    (⟨0, [], str "Ok  done [e](w)"⟩ : Note).sec = [] ∧
    (⟨0, [], str "Ok  done [e](w)"⟩ : Note).body =
      capfirst (pyStrip (replaceAll (str "ok #release-note done") markerKey [])) ++
        ' ' :: mdLink (str "e") (str "w") ∧
    containsSubstr (⟨0, [], str "Ok  done [e](w)"⟩ : Note).body markerKey = false := by
  obtain ⟨r, hr, hp⟩ := c9_no_eq_empty_section (fun _ => none)
    (str "ok #release-note done") 0 (str "e") (str "w") 3 (by rfl) (by decide)
  have hconc : add_note (fun _ => none) (str "ok #release-note done") 0
      (str "e") (str "w") = .ok ⟨some ⟨0, [], str "Ok  done [e](w)"⟩, []⟩ := rfl
  rw [hconc] at hr
  obtain rfl : (⟨some ⟨0, [], str "Ok  done [e](w)"⟩, []⟩ : AddNoteResult) = r :=
    Except.ok.inj hr
  obtain ⟨h1, h2, h3⟩ := hp _ rfl
  refine ⟨h1, h2, h3 ?_ ?_ ?_⟩
  · intro h
    rw [occursIn_iff_contains] at h
    exact absurd h (by decide)
  · intro h
    rw [occursIn_iff_contains] at h
    exact absurd h (by decide)
  · intro h
    rw [occursIn_iff_contains] at h
    exact absurd h (by decide)

/-- Counterexample to claim C5 as stated: the message
`#release-note x #release-note=Foo` contains `#release-note=Foo`, but the
first marker occurrence governs, so the emitted note's section is the
empty string rather than `foo`. -/
theorem c5_counterexample :
    noteOf (add_note (fun _ => none) (str "#release-note x #release-note=Foo") 0
        (str "e") (str "w")) = some (some ⟨0, [], str "X =Foo [e](w)"⟩) ∧
    (⟨0, [], str "X =Foo [e](w)"⟩ : Note).sec ≠ pyLower (str "Foo") :=
  ⟨rfl, by decide⟩

/-- Claim C5 as amended: when the first marker occurrence of the message
is immediately followed by `=<token>` (the token being the maximal
whitespace-free run after the `=`), the emitted note's section is that
token lowercased, whatever the input case. -/
theorem c5_section_lowercased (lookup : Int → Option Str) (message : Str)
    (dte : Nat) (eid entry_url : Str) (index : Nat) (tok rest : Str)
    (hfo : firstOccur message markerKey = some index)
    (hdrop : message.drop (index + markerKey.length) = '=' :: (tok ++ rest))
    (hne : tok ≠ []) (hns : ∀ c ∈ tok, pyIsSpace c = false)
    (hrest : pyIsSpace (rest.headD ' ') = true) :
    ∃ r, add_note lookup message dte eid entry_url = .ok r ∧
      ∀ n, r.note = some n → n.sec = pyLower tok := by
  unfold add_note
  rw [hfo]
  dsimp only
  have hdrop1 : message.drop (index + markerKey.length + 1) = tok ++ rest := by
    have h2 : List.drop 1 (List.drop (index + markerKey.length) message) =
        List.drop (index + markerKey.length + 1) message := by
      rw [List.drop_drop]
    rw [← h2, hdrop]
    rfl
  rw [if_pos (show (message.drop (index + markerKey.length)).head? = some '=' by
    rw [hdrop]; rfl)]
  rw [hdrop1]
  have hsp := pySplit_head_word hne hns hrest
  cases hps : pySplit (tok ++ rest) with
  | nil => rw [hps] at hsp; simp at hsp
  | cons s l =>
    rw [hps] at hsp
    obtain rfl : tok = s := by simpa using hsp.symm
    refine ⟨_, rfl, ?_⟩
    intro n hn
    unfold mkNote at hn
    cases hps2 : pyStrip (replaceAll message (markerKey ++ '=' :: tok) []) with
    | nil => rw [hps2] at hn; exact absurd hn (by simp)
    | cons b bt =>
      rw [hps2] at hn
      obtain rfl : (⟨dte, pyLower tok, capfirst (b :: bt) ++ ' ' :: mdLink eid entry_url⟩ :
          Note) = n := Option.some.inj hn
      rfl

/-- Witness for the amended C5 at the message `a #release-note=FIX b`. -/
theorem c5_witness :
    (⟨0, str "fix", str "A  b [e](w)"⟩ : Note).sec = pyLower (str "FIX") := by
  obtain ⟨r, hr, hp⟩ := c5_section_lowercased (fun _ => none)
    (str "a #release-note=FIX b") 0 (str "e") (str "w") 2 (str "FIX") (str " b")
    (by rfl) (by rfl) (by decide) (by decide) (by decide)
  have hconc : add_note (fun _ => none) (str "a #release-note=FIX b") 0
      (str "e") (str "w") = .ok ⟨some ⟨0, str "fix", str "A  b [e](w)"⟩, []⟩ := rfl
  rw [hconc] at hr
  obtain rfl : (⟨some ⟨0, str "fix", str "A  b [e](w)"⟩, []⟩ : AddNoteResult) = r :=
    Except.ok.inj hr
  exact hp _ rfl

/-- Counterexample to claim C1 as stated: in `fixes #42 and #42` the
token `#42` appears twice and `str.replace` rewrites both occurrences,
so the substitution into the message happens twice, not exactly once. -/
theorem c1_counterexample :
    noteOf (add_note (fun k => if k = 42 then some (str "u") else none)
        (str "fixes #42 and #42") 0 (str "e") (str "w")) =
      some (some ⟨0, [], str "fixes [#42](u) and [#42](u)"⟩) ∧
    countOccur (str "fixes [#42](u) and [#42](u)") (str "[#42](u)") = 2 :=
  ⟨rfl, rfl⟩

/-- Claim C1 as amended: for a marker-free message with a close-keyword
pair resolving `#<number>` successfully, when that token is the only
resolved one the emitted body is the message with every occurrence of
the token replaced by the Markdown link (one lookup serves all
occurrences), and the body contains the link. -/
theorem c1_close_reference_link (lookup : Int → Option Str) (message : Str)
    (dte : Nat) (eid entry_url kw tok ds : Str) (k : Int) (url : Str)
    (hmarker : firstOccur message markerKey = none)
    (hpair : (kw, tok) ∈ (pySplit message).dropLast.zip (pySplit message).tail)
    (htok : tok = '#' :: ds) (hk : pyInt ds = some k)
    (hkw : close_issue.contains (pyLower kw) = true)
    (hlookup : lookup k = some url)
    (hsubs : (scanSubstitutes lookup
        ((pySplit message).dropLast.zip (pySplit message).tail)).1 = [(tok, url)]) :
    ∃ r, add_note lookup message dte eid entry_url = .ok r ∧
      ∃ n, r.note = some n ∧ n.sec = [] ∧
        n.body = replaceAll message tok (mdLink tok url) ∧
        containsSubstr n.body (mdLink tok url) = true := by
  unfold add_note
  rw [hmarker]
  dsimp only
  rw [hsubs]
  refine ⟨_, rfl, _, rfl, rfl, rfl, ?_⟩
  have htokmem : tok ∈ pySplit message :=
    mem_of_mem_tail (List.of_mem_zip hpair).2
  have hocc : occursIn tok message := pySplit_mem_occursIn htokmem
  have hne : tok ≠ [] := by rw [htok]; simp
  have hr : occursIn (mdLink tok url) (replaceAll message tok (mdLink tok url)) :=
    replaceAll_rep_occurs hne hocc
  show (firstOccur ([(tok, url)].foldl subLink message) (mdLink tok url)).isSome = true
  exact firstOccur_isSome_of_occursIn hr

/-- Witness for the amended C1 at the message `fixes #42 ok`. -/
theorem c1_witness :
    containsSubstr (replaceAll (str "fixes #42 ok") (str "#42")
        (mdLink (str "#42") (str "u"))) (mdLink (str "#42") (str "u")) = true := by
  obtain ⟨r, hr, n, hn, _, hbody, hcontains⟩ :=
    c1_close_reference_link (fun k => if k = 42 then some (str "u") else none)
      (str "fixes #42 ok") 0 (str "e") (str "w") (str "fixes") (str "#42") (str "42")
      42 (str "u") (by rfl) (by decide) (by rfl) (by rfl) (by rfl) (by rfl) (by rfl)
  rw [← hbody]
  have hconc : add_note (fun k => if k = 42 then some (str "u") else none)
      (str "fixes #42 ok") 0 (str "e") (str "w") =
      .ok ⟨some ⟨0, [], str "fixes [#42](u) ok"⟩, [str "#42"]⟩ := rfl
  rw [hconc] at hr
  obtain rfl : (⟨some ⟨0, [], str "fixes [#42](u) ok"⟩, [str "#42"]⟩ :
      AddNoteResult) = r := Except.ok.inj hr
  obtain rfl : (⟨0, [], str "fixes [#42](u) ok"⟩ : Note) = n := Option.some.inj hn
  rw [hbody] at hcontains
  exact hcontains

/-- Counterexample to claim C3 as stated: in `fixes #1 closes #1` with a
lookup that always fails, the token `#1` is looked up twice within the
same message — a failed lookup is retried when the token reappears. -/
theorem c3_counterexample :
    add_note (fun _ => none) (str "fixes #1 closes #1") 0 (str "e") (str "w") =
      .ok ⟨none, [str "#1", str "#1"]⟩ ∧
    List.count (str "#1") [str "#1", str "#1"] = 2 :=
  ⟨rfl, rfl⟩

/-- Claim C3 as amended: a failed issue lookup is skipped silently and
contributes no substitution (every `substitutes` entry comes from a
successful lookup); a lookup whose number keeps failing is retried at
every later close-keyword occurrence of the same token (once per
eligible pair); only successful lookups are cached, so when every
lookup succeeds no token is ever queried twice. -/
theorem c3_failed_lookup_skipped :
    (∀ (lookup : Int → Option Str) (pairs : List (Str × Str)) (e : Str × Str),
        e ∈ (scanSubstitutes lookup pairs).1 → SubEntry lookup pairs e) ∧
    (∀ (lookup : Int → Option Str) (tok : Str) (k : Int) (pairs : List (Str × Str)),
        tok.head? = some '#' → pyInt (tok.drop 1) = some k → lookup k = none →
        (scanSubstitutes lookup pairs).2.count tok =
          pairs.countP (fun p => p.2 = tok && close_issue.contains (pyLower p.1))) ∧
    (∀ (lookup : Int → Option Str) (pairs : List (Str × Str)),
        (∀ k, (lookup k).isSome = true) → (scanSubstitutes lookup pairs).2.Nodup) := by
  refine ⟨?_, ?_, ?_⟩
  · intro lookup pairs e he
    exact scanSubstitutes_origin lookup pairs e he
  · intro lookup tok k pairs hhead hint hfail
    have h := scan_trace_retry hhead hint hfail pairs ([], []) (by simp)
    simpa using h
  · intro lookup pairs hok
    exact (scan_trace_nodup hok pairs ([], []) (by simp) (by simp)).1

/-- Witness for the amended C3: a successful entry satisfies the origin
property; the failing token of `fixes #1 closes #1` is queried twice
(once per pair); with an always-successful lookup the trace of
`fixes #42 closes #42` has no duplicate. -/
theorem c3_witness :
    SubEntry (fun k => if k = 42 then some (str "u") else none)
      [(str "fixes", str "#42")] (str "#42", str "u") ∧
    (scanSubstitutes (fun _ => none)
        [(str "fixes", str "#1"), (str "closes", str "#1")]).2.count (str "#1") =
      [(str "fixes", str "#1"), (str "closes", str "#1")].countP
        (fun p => p.2 = str "#1" && close_issue.contains (pyLower p.1)) ∧
    (scanSubstitutes (fun _ => some (str "u"))
        [(str "fixes", str "#42"), (str "closes", str "#42")]).2.Nodup := by
  refine ⟨?_, ?_, ?_⟩
  · exact c3_failed_lookup_skipped.1 (fun k => if k = 42 then some (str "u") else none)
      [(str "fixes", str "#42")] (str "#42", str "u") (by decide)
  · exact c3_failed_lookup_skipped.2.1 (fun _ => none) (str "#1") 1
      [(str "fixes", str "#1"), (str "closes", str "#1")] (by rfl) (by rfl) (by rfl)
  · exact c3_failed_lookup_skipped.2.2 (fun _ => some (str "u"))
      [(str "fixes", str "#42"), (str "closes", str "#42")] (fun _ => rfl)

/-- Counterexample to claim C4 as stated: two inputs holding the same
multiset of notes (two notes with equal timestamps) render to different
documents, because the stable sort keeps tied notes in reverse input
order; the output is a function of the input list, not of its
multiset. -/
theorem c4_counterexample :
    List.Perm [(⟨0, [], str "a"⟩ : Note), ⟨0, [], str "b"⟩]
      [(⟨0, [], str "b"⟩ : Note), ⟨0, [], str "a"⟩] ∧
    release_notes [⟨0, [], str "a"⟩, ⟨0, [], str "b"⟩] (str "1.0") (str "D") ≠
      release_notes [⟨0, [], str "b"⟩, ⟨0, [], str "a"⟩] (str "1.0") (str "D") := by
  constructor
  · exact List.Perm.swap _ _ _
  · decide

/-- Claim C4 as amended: for a fixed input list of notes, version and
date, the rendering is a pure function whose section keys are visited in
ascending alphabetical order with the empty key first (and rendered
without a heading, while every non-empty key gets a `## ` heading), and
whose per-section entries are the bodies of the notes of that section in
descending-timestamp order. -/
theorem c4_render_deterministic_ordered (notes : List Note) (k : Str)
    (p : Note → Bool) (es : List Str) (t : Str) :
    (renderTitles notes).Chain' strLe ∧
    ([] ∈ renderTitles notes → (renderTitles notes).head? = some []) ∧
    lookupSec (groupSections (sortNotes notes)) k =
      ((sortNotes notes).filter (fun n => n.sec = k)).map (fun n => n.body) ∧
    ((sortNotes notes).filter p).Pairwise (fun a b => b.dte ≤ a.dte) ∧
    sectionBlock [] es = es.map bullet ++ [[]] ∧
    (t ≠ [] → sectionBlock t es = (str "## " ++ capfirst t) :: (es.map bullet ++ [[]])) := by
  refine ⟨?_, ?_, ?_, ?_, ?_, ?_⟩
  · exact sortStrs_chain _
  · intro hmem
    exact chain_head_empty (sortStrs_chain _) hmem
  · exact lookupSec_groupSections _ k
  · exact (sortNotes_pairwise notes).filter p
  · rfl
  · intro ht
    unfold sectionBlock
    rw [if_neg ht]
    rfl

/-- Witness for the amended C4 at a two-note, two-section input. -/
theorem c4_witness :
    (renderTitles [(⟨5, str "bug", str "x"⟩ : Note), ⟨3, [], str "y"⟩]).head? =
      some [] ∧
    sectionBlock (str "bug") [str "x"] =
      (str "## " ++ capfirst (str "bug")) :: ([str "x"].map bullet ++ [[]]) := by
  constructor
  · exact (c4_render_deterministic_ordered
      [(⟨5, str "bug", str "x"⟩ : Note), ⟨3, [], str "y"⟩] [] (fun _ => true)
      [] (str "bug")).2.1 (by decide)
  · exact (c4_render_deterministic_ordered
      [(⟨5, str "bug", str "x"⟩ : Note), ⟨3, [], str "y"⟩] [] (fun _ => true)
      [str "x"] (str "bug")).2.2.2.2.2 (by decide)

/-- Claim C8: sorting the note list ascending by timestamp and then
reversing it yields a permutation of the input sorted in descending
timestamp order; that is the iteration order over notes before
grouping. -/
theorem c8_reversed_sort_descending (notes : List Note) :
    List.Perm (sortNotes notes) notes ∧
    (sortNotes notes).Pairwise (fun a b => b.dte ≤ a.dte) :=
  ⟨sortNotes_perm notes, sortNotes_pairwise notes⟩

/-- Claim C10: `check_update` keeps exactly the pulls whose `updated_at`
is strictly greater than `since` (in order), and `_from_pull_requests`
obtains its working list by handing that callback to the fetch — the
notes it produces are the notes of the callback-filtered list, with no
filtering after the fetch. -/
theorem c10_pulls_filtered_by_callback (since : Nat) (L : List Pull)
    (lookup : Int → Option Str) (comments : Int → List Str) :
    check_update since L = L.filter (fun p => decide (since < p.updated_at)) ∧
    from_pull_requests lookup comments (fun cb => cb L) since =
      notesFromPulls lookup comments
        (L.filter (fun p => decide (since < p.updated_at))) [] := by
  have hfilter : ∀ (M : List Pull) (acc : List Pull),
      M.foldl (fun new_pulls pull =>
          if since < pull.updated_at then new_pulls ++ [pull] else new_pulls) acc =
        acc ++ M.filter (fun p => decide (since < p.updated_at)) := by
    intro M
    induction M with
    | nil => intro acc; simp
    | cons p t ih =>
      intro acc
      rw [List.foldl_cons]
      by_cases h : since < p.updated_at
      · rw [if_pos h, ih, List.filter_cons_of_pos (by simpa using h)]
        simp
      · rw [if_neg h, ih, List.filter_cons_of_neg (by simpa using h)]
  have h1 : check_update since L = L.filter (fun p => decide (since < p.updated_at)) := by
    unfold check_update
    rw [hfilter L []]
    rfl
  refine ⟨h1, ?_⟩
  unfold from_pull_requests
  show notesFromPulls lookup comments (check_update since L) [] = _
  rw [h1]

end PulsarAgile
